import Mathlib

/-!
Verification of the employees statistics service
(`app/services/statistics.py`) against its specification.

The dataset is embedded as a `List Record`, one `Record` per row of the
loaded DataFrame; nullable numeric columns become `Option ℚ` and nullable
string columns `Option String`.  Pandas operations whose result the
library leaves underdetermined are embedded as predicates over the
admissible results: `sort_values` (whose default sort kind is not
stable) guarantees only a permutation of the rows that is descending on
the key with missing keys last, and `value_counts` only one entry per
distinct value with its count, in descending count order — in both, the
relative order of ties is unspecified.  Fully determined operations are
embedded as functions: `describe` computes the fixed statistic set over
the non-missing values, dropping statistics that are undefined, and a
row slice `iloc[a:b]` is `drop`/`take`.
-/

namespace EmployeesStats

/-- A parsed date of birth (`to_datetime` output): year, month, day. -/
structure Date where
  year : Int
  month : Nat
  day : Nat
deriving DecidableEq, Repr

/-- One row of the loaded DataFrame, after the numeric and date coercions
of `load_dataframe` and the derived `age` column. -/
structure Record where
  first_name : String
  last_name : String
  salary : Option ℚ
  years_of_experience : Option ℚ
  date_of_birth : Option Date
  gender : Option String
  industry : Option String
  age : Option Int
deriving DecidableEq, Repr

/-- The payload of a raised `HTTPException`. -/
structure HTTPError where
  status_code : Nat
  detail : String
deriving DecidableEq, Repr

/-- `PaginationMeta` of `app/models/responses.py`. -/
structure PaginationMeta where
  total_records : Nat
  current_page : Nat
  total_pages : Nat
  next_page : Option Nat
  prev_page : Option Nat
deriving DecidableEq, Repr

/-- `PaginatedDataResponse` of `app/models/responses.py`; `data` carries
the selected rows. -/
structure PaginatedDataResponse where
  data : List Record
  pagination : PaginationMeta
deriving DecidableEq, Repr

/-- `get_paginated_data`: raises 404 when `offset >= total_records`,
otherwise returns the row slice `iloc[offset : offset + limit]` together
with the pagination metadata computed from `offset`, `limit` and the
record count. -/
def get_paginated_data (ds : List Record) (offset : Nat) (limit : Nat) :
    Except HTTPError PaginatedDataResponse :=
  let total_records := ds.length
  if offset ≥ total_records then
    .error ⟨404, "Page out of range"⟩
  else
    let page_data := (ds.drop offset).take limit
    let current_page := offset / limit + 1
    let total_pages := (total_records + limit - 1) / limit
    let next_page := if current_page < total_pages then some (current_page + 1) else none
    let prev_page := if current_page > 1 then some (current_page - 1) else none
    .ok ⟨page_data, ⟨total_records, current_page, total_pages, next_page, prev_page⟩⟩

/-- Strict "comes strictly earlier" order on an optional sort key for
`sort_values(ascending=False)` with the default `na_position="last"`:
larger values come first and missing values come after every present
value. -/
def descLt {β : Type} [LT β] : Option β → Option β → Prop
  | some x, some y => y < x
  | some _, none => True
  | none, _ => False

instance {β : Type} [LT β] [DecidableRel (α := β) (· < ·)] :
    DecidableRel (descLt (β := β)) := fun x y =>
  match x, y with
  | some a, some b => inferInstanceAs (Decidable (b < a))
  | some _, none => inferInstanceAs (Decidable True)
  | none, some _ => inferInstanceAs (Decidable False)
  | none, none => inferInstanceAs (Decidable False)

/-- The columns selected by `get_top_earners`. -/
structure EarnerRow where
  first_name : String
  last_name : String
  salary : Option ℚ
  industry : Option String
deriving DecidableEq, Repr

/-- The columns selected by `get_top_experienced`. -/
structure ExperiencedRow where
  first_name : String
  last_name : String
  years_of_experience : Option ℚ
  industry : Option String
deriving DecidableEq, Repr

/-- The distinct values of a list, keeping first occurrences in order;
used to count distinct values and to build one admissible
`value_counts` result. -/
def distinct_keys {κ : Type} [DecidableEq κ] : List κ → List κ
  | [] => []
  | x :: xs => x :: (distinct_keys xs).filter (fun y => y ≠ x)

/-- A two-record dataset, one record with a missing industry, witnessing
that industry counts can sum to strictly less than the record count. -/
def dsC10 : List Record :=
  [⟨"Ana", "One", some 1, some 1, none, some "F", some "Tech", none⟩,
   ⟨"Bob", "Two", none, none, none, none, none, none⟩]

/-- The statistics reported by `Series.describe()` after `.dropna()`:
a statistic is absent exactly when pandas reports `NaN` for it (`mean`,
`min`, the percentiles and `max` need at least one value, the sample
`std` at least two).  The `std` field carries the sample variance, the
square of the value the code reports; taking the square root does not
change on which inputs the statistic is defined. -/
structure StatsResult where
  count : ℚ
  mean : Option ℚ
  std : Option ℚ
  min : Option ℚ
  p25 : Option ℚ
  p50 : Option ℚ
  p75 : Option ℚ
  max : Option ℚ
deriving DecidableEq, Repr

/-- The `q`-quantile of the ascending-sorted values `s`, by linear
interpolation between ranked values (the numpy default `describe`
uses). -/
def quantile (s : List ℚ) (q : ℚ) : Option ℚ :=
  if s.isEmpty then none
  else
    let n := s.length
    let h : ℚ := q * ((n : ℚ) - 1)
    let i : Nat := ⌊h⌋.toNat
    let lo := s.getD i 0
    let hi := s.getD (min (i + 1) (n - 1)) 0
    some (lo + (h - (⌊h⌋ : ℚ)) * (hi - lo))

/-- `Series.describe().dropna().to_dict()` over the non-missing values
`xs` of a numeric column. -/
def describe (xs : List ℚ) : StatsResult :=
  let n := xs.length
  let s := List.insertionSort (fun a b : ℚ => a ≤ b) xs
  let mean := xs.sum / (n : ℚ)
  ⟨n,
    if n = 0 then none else some mean,
    if n < 2 then none else some ((xs.map (fun x => (x - mean) ^ 2)).sum / ((n : ℚ) - 1)),
    s.head?,
    quantile s (1 / 4),
    quantile s (1 / 2),
    quantile s (3 / 4),
    s.getLast?⟩

/-- The row filter `df[df["industry"] == industry] if industry else df`:
`None` and the empty string are falsy in Python, so both leave the frame
unfiltered; a non-empty industry keeps exactly the rows whose industry
equals it (case-sensitive). -/
def industry_subset (ds : List Record) (industry : Option String) : List Record :=
  match industry with
  | none => ds
  | some s => if s = "" then ds else ds.filter (fun r => r.industry = some s)

/-- `get_salary_stats`: describe the salary column of the (possibly
industry-filtered) frame. -/
def get_salary_stats (ds : List Record) (industry : Option String) : StatsResult :=
  describe ((industry_subset ds industry).filterMap (fun r => r.salary))

/-- `get_experience_stats`: describe the years-of-experience column of
the (possibly industry-filtered) frame. -/
def get_experience_stats (ds : List Record) (industry : Option String) : StatsResult :=
  describe ((industry_subset ds industry).filterMap (fun r => r.years_of_experience))

/-- `get_age_distribution`: describe the derived age column. -/
def get_age_distribution (ds : List Record) : StatsResult :=
  describe (ds.filterMap (fun r => r.age.map (fun a => (a : ℚ))))

/-- `CorrelationResponse` of `app/models/responses.py`. -/
structure CorrelationResponse where
  salary_vs_experience : Option ℚ
  experience_vs_age : Option ℚ
deriving DecidableEq, Repr

/-- The rows where both columns are present: `DataFrame.corr` computes
over pairwise-complete observations. -/
def paired_obs (f g : Record → Option ℚ) (ds : List Record) : List (ℚ × ℚ) :=
  ds.filterMap (fun r => match f r, g r with
    | some x, some y => some (x, y)
    | _, _ => none)

/-- The Pearson correlation of the paired observations, `none` (pandas
`NaN`, which `get_correlations` maps to `None`) with fewer than two
pairs or a zero variance.  The value carried is `Sxy / (Sxx * Syy)`; the
code reports `Sxy / sqrt (Sxx * Syy)` rounded to four places, which is
defined on exactly the same inputs. -/
def pearson (ps : List (ℚ × ℚ)) : Option ℚ :=
  if ps.length < 2 then none
  else
    let n : ℚ := ps.length
    let mx := (ps.map Prod.fst).sum / n
    let my := (ps.map Prod.snd).sum / n
    let sxx := (ps.map (fun p => (p.1 - mx) ^ 2)).sum
    let syy := (ps.map (fun p => (p.2 - my) ^ 2)).sum
    let sxy := (ps.map (fun p => (p.1 - mx) * (p.2 - my))).sum
    if sxx = 0 ∨ syy = 0 then none
    else some (sxy / (sxx * syy))

/-- `get_correlations`: salary vs experience and experience vs age. -/
def get_correlations (ds : List Record) : CorrelationResponse :=
  ⟨pearson (paired_obs (fun r => r.salary) (fun r => r.years_of_experience) ds),
   pearson (paired_obs (fun r => r.years_of_experience)
     (fun r => r.age.map (fun a => (a : ℚ))) ds)⟩

/-- A two-record dataset with one record whose industry is the empty
string: stats for `industry = ""` cover both records, not just the
matching one. -/
def dsC9 : List Record :=
  [⟨"Ana", "One", some 1, none, none, none, some "", none⟩,
   ⟨"Bob", "Two", some 3, none, none, none, some "Tech", none⟩]

/-- A raw JSON scalar as read from the source file, before coercion. -/
inductive JsonVal : Type
  | num (q : ℚ)
  | str (s : String)
  | null
deriving DecidableEq, Repr

/-- One raw record of the JSON source file. -/
structure RawRecord where
  first_name : String
  last_name : String
  salary : JsonVal
  years_of_experience : JsonVal
  date_of_birth : JsonVal
  gender : Option String
  industry : Option String
deriving DecidableEq, Repr

/-- `pd.to_numeric(errors="coerce")`: numbers pass through, anything
non-numeric becomes missing.  (Numeric strings are modelled as already
numeric JSON values.) -/
def to_numeric : JsonVal → Option ℚ
  | .num q => some q
  | _ => none

/-- `pd.to_datetime(format="%d/%m/%Y", errors="coerce")`: parse a
`DD/MM/YYYY` string, anything unparseable becomes missing.  (Calendar
fine points such as per-month day counts are not modelled.) -/
def parse_date : JsonVal → Option Date
  | .str s =>
    (match (s.splitOn "/").map String.toNat? with
      | [some d, some m, some y] =>
        if 1 ≤ d ∧ d ≤ 31 ∧ 1 ≤ m ∧ m ≤ 12 then some ⟨(y : Int), m, d⟩ else none
      | _ => none)
  | _ => none

/-- `calculate_age`: naive year difference, minus one when today's
(month, day) tuple precedes the birthday's (the source compares the
tuples lexicographically). -/
def calculate_age (today : Date) (born : Date) : Int :=
  today.year - born.year -
    (if today.month < born.month ∨ (today.month = born.month ∧ today.day < born.day)
      then 1 else 0)

/-- The body of `load_dataframe`: coerce the numeric columns, parse the
date-of-birth column, derive `age`. -/
def preprocess (today : Date) (rows : List RawRecord) : List Record :=
  rows.map (fun r =>
    ⟨r.first_name, r.last_name, to_numeric r.salary, to_numeric r.years_of_experience,
      parse_date r.date_of_birth, r.gender, r.industry,
      (parse_date r.date_of_birth).map (calculate_age today)⟩)

/-- The process-wide `@lru_cache` slot of `load_dataframe`, together
with a count of how many times the source file has been read. -/
structure LoaderState where
  cached : Option (List Record)
  reads : Nat
deriving DecidableEq, Repr

/-- `load_dataframe` under `@lru_cache`: a hit returns the cached frame
with the state unchanged; a miss reads and preprocesses the source,
counts the read, and fills the cache. -/
def load_dataframe (today : Date) (source : List RawRecord) (st : LoaderState) :
    List Record × LoaderState :=
  match st.cached with
  | some df => (df, st)
  | none => (preprocess today source, ⟨some (preprocess today source), st.reads + 1⟩)

/-- A sequence of query calls: each obtains the DataFrame through
`load_dataframe` and computes a pure function of it. -/
def run_queries {ρ : Type} (today : Date) (source : List RawRecord) :
    List (List Record → ρ) → LoaderState → List ρ × LoaderState
  | [], st => ([], st)
  | f :: fs, st =>
    let r := load_dataframe today source st
    let rest := run_queries today source fs r.2
    (f r.1 :: rest.1, rest.2)

/-- A small mixed dataset used to instantiate the theorems: present and
missing salaries, experiences, genders and industries. -/
def dsW : List Record :=
  [⟨"Ann", "Ash", some 50, some 5, none, some "F", some "Tech", some 30⟩,
   ⟨"Ben", "Bell", none, some 2, none, none, some "Retail", none⟩,
   ⟨"Cal", "Cole", some 70, none, none, some "M", none, some 41⟩]

/-- A one-record dataset whose salary column is entirely missing. -/
def dsW3 : List Record :=
  [⟨"Dot", "Day", none, none, none, none, some "Tech", none⟩]

/-- The comparison `sort_values(by=key, ascending=False)` with the
default `na_position="last"` sorts by: strictly earlier in the
descending order with missing keys last, or equal keys.  It says
nothing about the relative order of rows with equal keys. -/
def keyDescLe {α β : Type} [LT β] (key : α → Option β) (a b : α) : Prop :=
  descLt (key a) (key b) ∨ key a = key b

instance {α β : Type} [LinearOrder β] (key : α → Option β) :
    DecidableRel (keyDescLe key) := fun a b => by
  unfold keyDescLe
  infer_instance

/-- What `df.sort_values(by=key, ascending=False)` guarantees of its
result: a permutation of the rows, pairwise descending on the key with
missing keys after every present one.  The default sort kind
(`quicksort`) is not stable, so the relative order of rows with equal
keys is unspecified: every list satisfying this predicate is an
admissible result. -/
def sort_values_spec {α β : Type} [LinearOrder β] (key : α → Option β)
    (l out : List α) : Prop :=
  out.Perm l ∧ out.Pairwise (keyDescLe key)

instance {α β : Type} [LinearOrder β] [DecidableEq α] (key : α → Option β)
    (l out : List α) : Decidable (sort_values_spec key l out) := by
  unfold sort_values_spec
  infer_instance

/-- One admissible `sort_values` result (an insertion sort by the key
comparison), used to show admissible results exist; its particular tie
order is incidental and nothing is proved about it. -/
def sort_values_impl {α β : Type} [LinearOrder β] (key : α → Option β)
    (l : List α) : List α :=
  l.insertionSort (keyDescLe key)

/-- `get_top_earners`: an admissible result takes the first `n` rows of
an admissible descending sort by salary and selects the four reported
columns. -/
def top_earners_spec (ds : List Record) (n : Nat) (res : List EarnerRow) : Prop :=
  ∃ out, sort_values_spec (fun r => r.salary) ds out ∧
    res = (out.take n).map (fun r => ⟨r.first_name, r.last_name, r.salary, r.industry⟩)

/-- `get_top_experienced`: likewise for years of experience. -/
def top_experienced_spec (ds : List Record) (n : Nat) (res : List ExperiencedRow) : Prop :=
  ∃ out, sort_values_spec (fun r => r.years_of_experience) ds out ∧
    res = (out.take n).map
      (fun r => ⟨r.first_name, r.last_name, r.years_of_experience, r.industry⟩)

/-- Descending order on count entries. -/
def count_desc {κ : Type} (p q : κ × Nat) : Prop := q.2 ≤ p.2

instance {κ : Type} : DecidableRel (count_desc (κ := κ)) := fun p q =>
  inferInstanceAs (Decidable (q.2 ≤ p.2))

/-- What `Series.value_counts()` guarantees of its result: exactly one
entry per distinct value, carrying its number of occurrences, in
descending count order.  The relative order of values with equal counts
is unspecified (it depends on hash order and an unstable sort), so
every list satisfying this predicate is an admissible result. -/
def value_counts_spec {κ : Type} [DecidableEq κ] (keys : List κ)
    (out : List (κ × Nat)) : Prop :=
  (∀ p ∈ out, p.1 ∈ keys ∧ p.2 = keys.count p.1) ∧
  (∀ k ∈ keys, (k, keys.count k) ∈ out) ∧
  (out.map Prod.fst).Nodup ∧
  out.Pairwise count_desc

instance {κ : Type} [DecidableEq κ] (keys : List κ) (out : List (κ × Nat)) :
    Decidable (value_counts_spec keys out) := by
  unfold value_counts_spec
  infer_instance

/-- One admissible `value_counts` result (distinct values in
first-occurrence order, insertion-sorted by descending count), used to
show admissible results exist; its particular tie order is incidental
and nothing is proved about it. -/
def value_counts_impl {κ : Type} [DecidableEq κ] (keys : List κ) : List (κ × Nat) :=
  ((distinct_keys keys).map (fun k => (k, keys.count k))).insertionSort count_desc

/-- `get_industry_distribution`: an admissible result truncates an
admissible `value_counts` of the industry column (missing industries
dropped by the default `dropna`) to the `top_n` most frequent
entries. -/
def get_industry_distribution_spec (ds : List Record) (top_n : Nat)
    (res : List (String × Nat)) : Prop :=
  ∃ out, value_counts_spec (ds.filterMap (fun r => r.industry)) out ∧
    res = out.take top_n

/-- `get_gender_distribution`: an admissible result is an admissible
`value_counts(dropna=False)` of the gender column, missing values
counted under the `none` key. -/
def get_gender_distribution_spec (ds : List Record)
    (res : List (Option String × Nat)) : Prop :=
  value_counts_spec (ds.map (fun r => r.gender)) res

/-- `StatsResponse` of `app/models/responses.py` declares `count`,
`mean`, `std`, `min` and `max` as required fields (only the percentiles
are `Optional`), so it validates a stats dict exactly when those
statistics are all present; on a dict missing one of them the response
validation raises. -/
def statsResponse_validates (s : StatsResult) : Bool :=
  s.mean.isSome && s.std.isSome && s.min.isSome && s.max.isSome

/-- A record tied with `rTieB` on salary and experience. -/
def rTieA : Record := ⟨"Ann", "Ash", some 10, some 4, none, some "F", some "Tech", none⟩

/-- A record tied with `rTieA` on salary and experience. -/
def rTieB : Record := ⟨"Bea", "Bell", some 10, some 4, none, some "F", some "Retail", none⟩

/-- Two records with equal salaries and experiences but different
industries: ties for the sorts, and equal counts for the industry
distribution. -/
def dsTie : List Record := [rTieA, rTieB]

theorem descLt_trans {β : Type} [Preorder β] {x y z : Option β}
    (h1 : descLt x y) (h2 : descLt y z) : descLt x z := by
  cases x <;> cases y <;> cases z <;> simp [descLt] at *
  exact lt_trans h2 h1

theorem not_descLt_self {β : Type} [Preorder β] (x : Option β) : ¬descLt x x := by
  cases x <;> simp [descLt]

theorem mem_distinct_keys {κ : Type} [DecidableEq κ] (l : List κ) (a : κ) :
    a ∈ distinct_keys l ↔ a ∈ l := by
  induction l with
  | nil => simp [distinct_keys]
  | cons x xs ih =>
    simp only [distinct_keys, List.mem_cons, List.mem_filter, ih]
    by_cases hax : a = x
    · simp [hax]
    · simp [hax]

theorem nodup_distinct_keys {κ : Type} [DecidableEq κ] (l : List κ) :
    (distinct_keys l).Nodup := by
  induction l with
  | nil => simp [distinct_keys]
  | cons x xs ih =>
    simp only [distinct_keys]
    refine List.Pairwise.cons ?_ (ih.filter _)
    intro b hb
    rw [List.mem_filter] at hb
    intro hxb
    subst hxb
    simpa using hb.2

theorem sum_map_filter_ne {κ : Type} [DecidableEq κ] (f : κ → Nat) (x : κ) (l : List κ)
    (hnd : l.Nodup) :
    (l.map f).sum = ((l.filter (fun y => y ≠ x)).map f).sum + (if x ∈ l then f x else 0) := by
  induction l with
  | nil => simp
  | cons y ys ih =>
    have hnd' := hnd.of_cons
    by_cases hyx : y = x
    · subst hyx
      have hxys : y ∉ ys := (List.nodup_cons.mp hnd).1
      have hfil : (y :: ys).filter (fun z => z ≠ y) = ys.filter (fun z => z ≠ y) := by
        simp [List.filter_cons]
      have hfil2 : ys.filter (fun z => z ≠ y) = ys := by
        refine List.filter_eq_self.mpr ?_
        intro a ha
        have hay : a ≠ y := by
          intro h
          subst h
          exact hxys ha
        simpa using hay
      rw [List.map_cons, List.sum_cons, hfil, hfil2, if_pos (List.mem_cons_self y ys)]
      omega
    · have hfil : (y :: ys).filter (fun z => z ≠ x) = y :: ys.filter (fun z => z ≠ x) := by
        simp [List.filter_cons, hyx]
      rw [List.map_cons, List.sum_cons, hfil, List.map_cons, List.sum_cons, ih hnd']
      have hiff : x ∈ y :: ys ↔ x ∈ ys := by
        rw [List.mem_cons]
        constructor
        · rintro (h | h)
          · exact absurd h.symm hyx
          · exact h
        · exact Or.inr
      rw [if_congr hiff rfl rfl]
      omega

theorem length_eq_count_add_filter {κ : Type} [DecidableEq κ] (x : κ) (xs : List κ) :
    xs.length = xs.count x + (xs.filter (fun y => y ≠ x)).length := by
  induction xs with
  | nil => rfl
  | cons y ys ih =>
    by_cases h : y = x
    · subst h
      have hfc : (y :: ys).filter (fun z => z ≠ y) = ys.filter (fun z => z ≠ y) := by
        simp [List.filter_cons]
      rw [List.length_cons, hfc, List.count_cons_self, ih]
      omega
    · have hfc : (y :: ys).filter (fun z => z ≠ x) = y :: ys.filter (fun z => z ≠ x) := by
        simp [List.filter_cons, h]
      rw [List.length_cons, hfc, List.length_cons,
        List.count_cons_of_ne (fun hxy => h hxy.symm), ih]
      omega

theorem sum_counts_distinct {κ : Type} [DecidableEq κ] (l : List κ) :
    ((distinct_keys l).map (fun k => l.count k)).sum = l.length := by
  induction l with
  | nil => simp [distinct_keys]
  | cons x xs ih =>
    simp only [distinct_keys, List.map_cons, List.sum_cons]
    have hmap : ((distinct_keys xs).filter (fun y => y ≠ x)).map
          (fun k => (x :: xs).count k) =
        ((distinct_keys xs).filter (fun y => y ≠ x)).map (fun k => xs.count k) := by
      refine List.map_congr_left ?_
      intro k hk
      rw [List.mem_filter] at hk
      have hkx : k ≠ x := by simpa using hk.2
      rw [List.count_cons_of_ne hkx]
    rw [hmap]
    have hsplit := sum_map_filter_ne (fun k => xs.count k) x (distinct_keys xs)
      (nodup_distinct_keys xs)
    rw [ih] at hsplit
    simp only [] at hsplit
    rw [List.count_cons_self, List.length_cons]
    by_cases hx : x ∈ xs
    · rw [if_pos ((mem_distinct_keys xs x).mpr hx)] at hsplit
      omega
    · rw [if_neg (fun hmem => hx ((mem_distinct_keys xs x).mp hmem))] at hsplit
      have hc0 : xs.count x = 0 := List.count_eq_zero.mpr hx
      omega

theorem count_filterMap_eq {α κ : Type} [DecidableEq κ] (f : α → Option κ)
    (l : List α) (k : κ) :
    (l.filterMap f).count k = (l.filter (fun a => f a = some k)).length := by
  induction l with
  | nil => rfl
  | cons a l ih =>
    cases hfa : f a with
    | none => simp [List.filterMap_cons, hfa, List.filter_cons, ih]
    | some t =>
      by_cases hts : t = k
      · subst hts
        simp [List.filterMap_cons, hfa, List.filter_cons, List.count_cons, ih]
      · simp [List.filterMap_cons, hfa, List.filter_cons, List.count_cons, hts, ih]

theorem count_map_eq {α κ : Type} [DecidableEq κ] (f : α → κ)
    (l : List α) (k : κ) :
    (l.map f).count k = (l.filter (fun a => f a = k)).length := by
  induction l with
  | nil => rfl
  | cons a l ih =>
    by_cases hts : f a = k
    · simp [List.map_cons, List.filter_cons, List.count_cons, hts, ih]
    · simp [List.map_cons, List.filter_cons, List.count_cons, hts, ih]

theorem length_filterMap_isSome {α κ : Type} (f : α → Option κ) (l : List α) :
    (l.filterMap f).length = (l.filter (fun a => (f a).isSome)).length := by
  induction l with
  | nil => rfl
  | cons a l ih =>
    cases hfa : f a with
    | none => simp [List.filterMap_cons, hfa, List.filter_cons, ih]
    | some t => simp [List.filterMap_cons, hfa, List.filter_cons, ih]

/-- C1: the paginated listing fails exactly when `offset ≥ total`. -/
theorem c1_paginated_notfound_iff (ds : List Record) (offset limit : Nat)
    (_hlim : 1 ≤ limit) :
    (get_paginated_data ds offset limit = .error ⟨404, "Page out of range"⟩ ↔
      offset ≥ ds.length) ∧
    (∀ r, get_paginated_data ds offset limit = .ok r → offset < ds.length) := by
  constructor
  · constructor
    · intro h
      by_contra hlt
      simp only [get_paginated_data, ge_iff_le, if_neg hlt] at h
      exact Except.noConfusion h
    · intro h
      simp [get_paginated_data, h]
  · intro r h
    by_contra hge
    simp only [Nat.not_lt] at hge
    simp only [get_paginated_data, ge_iff_le, if_pos hge] at h
    exact Except.noConfusion h

/-- C4: for `limit ≥ 1` and `0 ≤ offset < total`, the returned data is
the contiguous slice of the dataset starting at `offset`, of length
`min limit (total - offset)`, in dataset order. -/
theorem c4_paginated_slice (ds : List Record) (offset limit : Nat)
    (_hlim : 1 ≤ limit) (hoff : offset < ds.length) :
    ∃ resp, get_paginated_data ds offset limit = .ok resp ∧
      resp.data = (ds.drop offset).take limit ∧
      resp.data.length = min limit (ds.length - offset) ∧
      ∀ i, i < resp.data.length → resp.data[i]? = ds[offset + i]? := by
  simp only [get_paginated_data, ge_iff_le, if_neg (Nat.not_le.mpr hoff)]
  refine ⟨_, rfl, rfl, ?_, ?_⟩
  · simp [List.length_take, List.length_drop]
  · intro i hi
    simp only [List.length_take, List.length_drop, lt_min_iff] at hi
    rw [List.getElem?_take, if_pos hi.1, List.getElem?_drop]

/-- C5: for `limit ≥ 1` and `0 ≤ offset < total`, the pagination
metadata has `current_page = offset / limit + 1` (hence
`current_page * limit - limit ≤ offset < current_page * limit`),
`total_pages = ceil(total / limit)`, `next_page = none` exactly on the
last page and `prev_page = none` exactly on the first page. -/
theorem c5_pagination_meta (ds : List Record) (offset limit : Nat)
    (hlim : 1 ≤ limit) (hoff : offset < ds.length) :
    ∃ resp, get_paginated_data ds offset limit = .ok resp ∧
      resp.pagination.total_records = ds.length ∧
      resp.pagination.current_page = offset / limit + 1 ∧
      resp.pagination.current_page * limit - limit ≤ offset ∧
      offset < resp.pagination.current_page * limit ∧
      resp.pagination.total_pages = (ds.length + limit - 1) / limit ∧
      ds.length ≤ resp.pagination.total_pages * limit ∧
      limit * (resp.pagination.total_pages - 1) < ds.length ∧
      resp.pagination.current_page ≤ resp.pagination.total_pages ∧
      (resp.pagination.next_page = none ↔
        resp.pagination.current_page = resp.pagination.total_pages) ∧
      (resp.pagination.prev_page = none ↔ resp.pagination.current_page = 1) ∧
      (resp.pagination.current_page = 1 ↔ offset < limit) := by
  have hlpos : 0 < limit := hlim
  have htot : 1 ≤ ds.length := Nat.lt_of_le_of_lt (Nat.zero_le _) hoff
  have h1 : limit * (offset / limit) + offset % limit = offset := Nat.div_add_mod offset limit
  have h2 : offset % limit < limit := Nat.mod_lt offset hlpos
  have h3 : limit * ((ds.length + limit - 1) / limit) + (ds.length + limit - 1) % limit =
      ds.length + limit - 1 := Nat.div_add_mod (ds.length + limit - 1) limit
  have h4 : (ds.length + limit - 1) % limit < limit := Nat.mod_lt (ds.length + limit - 1) hlpos
  have hql : offset / limit * limit ≤ offset := Nat.div_mul_le_self offset limit
  have hlt : offset < (offset / limit + 1) * limit := by
    rw [Nat.succ_mul, Nat.mul_comm (offset / limit) limit]
    omega
  have hceil : ds.length ≤ ((ds.length + limit - 1) / limit) * limit := by
    rw [Nat.mul_comm]
    omega
  have hceil' : limit * ((ds.length + limit - 1) / limit - 1) < ds.length := by
    rw [Nat.mul_comm limit _, Nat.sub_one_mul, Nat.mul_comm _ limit]
    omega
  have hcp : offset / limit + 1 ≤ (ds.length + limit - 1) / limit := by
    have hqmul : offset / limit * limit < ((ds.length + limit - 1) / limit) * limit :=
      Nat.lt_of_le_of_lt hql (Nat.lt_of_lt_of_le hoff hceil)
    exact (Nat.mul_lt_mul_right hlpos).mp hqmul
  simp only [get_paginated_data, ge_iff_le, if_neg (Nat.not_le.mpr hoff)]
  refine ⟨_, rfl, ?_⟩
  dsimp only
  refine ⟨rfl, rfl, ?_, hlt, rfl, hceil, hceil', hcp, ?_, ?_, ?_⟩
  · rw [Nat.succ_mul, Nat.add_sub_cancel]
    exact hql
  · constructor
    · intro h
      by_contra hne
      have hstrict : offset / limit + 1 < (ds.length + limit - 1) / limit :=
        Nat.lt_of_le_of_ne hcp hne
      simp only [if_pos hstrict] at h
      exact Option.noConfusion h
    · intro h
      rw [h]
      simp
  · constructor
    · intro h
      by_contra hne
      have hgt : 1 < offset / limit + 1 :=
        Nat.lt_of_le_of_ne (Nat.succ_le_succ (Nat.zero_le _)) (Ne.symm hne)
      simp only [if_pos hgt] at h
      exact Option.noConfusion h
    · intro h
      rw [h]
      simp
  · constructor
    · intro h
      have hq0 : offset / limit = 0 := Nat.succ_injective h
      have hdm := Nat.div_add_mod offset limit
      rw [hq0, Nat.mul_zero, Nat.zero_add] at hdm
      rw [← hdm]
      exact h2
    · intro h
      have hq0 : offset / limit = 0 := Nat.div_eq_of_lt h
      rw [hq0]

/-- C9: the empty-string industry argument is falsy in the filter
condition, so stats for `industry = ""` equal the whole-dataset stats —
and on a dataset containing an empty-string industry they differ from
the stats of the rows whose industry is the empty string — while a
non-empty industry filters by exact, case-sensitive equality. -/
theorem c9_empty_industry_filter (ds : List Record) :
    get_salary_stats ds (some "") = get_salary_stats ds none ∧
    get_experience_stats ds (some "") = get_experience_stats ds none ∧
    (∀ s : String, s ≠ "" →
      industry_subset ds (some s) = ds.filter (fun r => r.industry = some s)) ∧
    get_salary_stats dsC9 (some "") ≠
      describe ((dsC9.filter (fun r => r.industry = some "")).filterMap
        (fun r => r.salary)) := by
  refine ⟨rfl, rfl, ?_, ?_⟩
  · intro s hs
    rw [industry_subset]
    simp [hs]
  · decide

theorem run_queries_cached {ρ : Type} (today : Date) (source : List RawRecord)
    (fs : List (List Record → ρ)) (df : List Record) (n : Nat) :
    run_queries today source fs ⟨some df, n⟩ = (fs.map (fun f => f df), ⟨some df, n⟩) := by
  induction fs with
  | nil => rfl
  | cons f fs ih =>
    rw [run_queries]
    simp only [load_dataframe, ih, List.map_cons]

/-- C8: `load_dataframe` is memoized and idempotent — calling it again
on the state a call produced returns the identical cached value and
state, with no further source read — and from a fresh state any sequence
of queries, in any order, reads the source at most once while every
query observes the identical snapshot `preprocess today source`.
Records, being values, are never mutated after load. -/
theorem c8_load_once_same_snapshot {ρ : Type} (today : Date) (source : List RawRecord)
    (st : LoaderState) (fs : List (List Record → ρ)) :
    load_dataframe today source (load_dataframe today source st).2 =
      load_dataframe today source st ∧
    (load_dataframe today source st).2.reads ≤ st.reads + 1 ∧
    (run_queries today source fs ⟨none, 0⟩).1 =
      fs.map (fun f => f (preprocess today source)) ∧
    (run_queries today source fs ⟨none, 0⟩).2.reads ≤ 1 := by
  refine ⟨?_, ?_, ?_, ?_⟩
  · cases hst : st.cached with
    | some df => simp [load_dataframe, hst]
    | none => simp [load_dataframe, hst]
  · cases hst : st.cached with
    | some df => simp [load_dataframe, hst]
    | none => simp [load_dataframe, hst]
  · cases fs with
    | nil => rfl
    | cons f fs =>
      rw [run_queries]
      simp only [load_dataframe, run_queries_cached, List.map_cons]
  · cases fs with
    | nil => simp [run_queries]
    | cons f fs =>
      rw [run_queries]
      simp only [load_dataframe, run_queries_cached]
      omega

theorem c1_paginated_notfound_iff_witness :
    1 ≤ 2 ∧ (get_paginated_data dsW 5 2 = .error ⟨404, "Page out of range"⟩ ↔
      5 ≥ dsW.length) :=
  ⟨by decide, (c1_paginated_notfound_iff dsW 5 2 (by decide)).1⟩

theorem c4_paginated_slice_witness :
    (1 ≤ 2 ∧ 1 < dsW.length) ∧
    (get_paginated_data dsW 1 2).toOption.map (fun r => r.data) =
      some ((dsW.drop 1).take 2) := by
  refine ⟨⟨by decide, by decide⟩, ?_⟩
  obtain ⟨resp, hok, hdata, -⟩ := c4_paginated_slice dsW 1 2 (by decide) (by decide)
  rw [hok]
  simp only [Except.toOption, Option.map_some']
  rw [hdata]

theorem c5_pagination_meta_witness :
    (1 ≤ 2 ∧ 1 < dsW.length) ∧
    (get_paginated_data dsW 1 2).toOption.map (fun r => r.pagination.current_page) =
      some (1 / 2 + 1) := by
  refine ⟨⟨by decide, by decide⟩, ?_⟩
  obtain ⟨resp, hok, -, hcp, -⟩ := c5_pagination_meta dsW 1 2 (by decide) (by decide)
  rw [hok]
  simp only [Except.toOption, Option.map_some']
  rw [hcp]

theorem c9_empty_industry_filter_witness :
    "T" ≠ "" ∧
    industry_subset dsW (some "T") = dsW.filter (fun r => r.industry = some "T") :=
  ⟨by decide, (c9_empty_industry_filter dsW).2.2.1 "T" (by decide)⟩

instance {α β : Type} [LinearOrder β] (key : α → Option β) :
    IsTotal α (keyDescLe key) where
  total a b := by
    unfold keyDescLe
    rcases ha : key a with _ | x <;> rcases hb : key b with _ | y
    · exact Or.inl (Or.inr rfl)
    · exact Or.inr (Or.inl trivial)
    · exact Or.inl (Or.inl trivial)
    · rcases lt_trichotomy x y with h | h | h
      · exact Or.inr (Or.inl h)
      · subst h
        exact Or.inl (Or.inr rfl)
      · exact Or.inl (Or.inl h)

instance {α β : Type} [LinearOrder β] (key : α → Option β) :
    IsTrans α (keyDescLe key) where
  trans a b c hab hbc := by
    rcases hab with hab | hab <;> rcases hbc with hbc | hbc
    · exact Or.inl (descLt_trans hab hbc)
    · exact Or.inl (hbc ▸ hab)
    · exact Or.inl (hab ▸ hbc)
    · exact Or.inr (hab.trans hbc)

instance {κ : Type} : IsTotal (κ × Nat) count_desc where
  total a b := Nat.le_total b.2 a.2

instance {κ : Type} : IsTrans (κ × Nat) count_desc where
  trans _ _ _ h1 h2 := Nat.le_trans h2 h1

theorem sort_values_spec_impl {α β : Type} [LinearOrder β] (key : α → Option β)
    (l : List α) : sort_values_spec key l (sort_values_impl key l) :=
  ⟨List.perm_insertionSort _ _, List.sorted_insertionSort _ _⟩

theorem pairwise_keyDescLe_fields {α β : Type} [LinearOrder β] (key : α → Option β)
    {l : List α} (h : l.Pairwise (keyDescLe key)) :
    l.Pairwise (fun a b =>
      (∀ x y, key a = some x → key b = some y → y ≤ x) ∧
      (key a = none → key b = none)) := by
  refine h.imp ?_
  rintro a b (hd | he)
  · constructor
    · intro x y hx hy
      rw [hx, hy] at hd
      exact le_of_lt hd
    · intro hx
      rw [hx] at hd
      exact absurd hd not_false
  · constructor
    · intro x y hx hy
      rw [hx, hy] at he
      exact le_of_eq (Option.some_injective _ he).symm
    · intro hx
      rw [hx] at he
      exact he.symm

theorem value_counts_spec_impl {κ : Type} [DecidableEq κ] (keys : List κ) :
    value_counts_spec keys (value_counts_impl keys) := by
  have hperm : (value_counts_impl keys).Perm
      ((distinct_keys keys).map (fun k => (k, keys.count k))) :=
    List.perm_insertionSort _ _
  refine ⟨?_, ?_, ?_, List.sorted_insertionSort _ _⟩
  · intro p hp
    obtain ⟨k, hk, rfl⟩ := List.mem_map.mp (hperm.mem_iff.mp hp)
    exact ⟨(mem_distinct_keys _ k).mp hk, rfl⟩
  · intro k hk
    exact hperm.mem_iff.mpr (List.mem_map.mpr ⟨k, (mem_distinct_keys _ k).mpr hk, rfl⟩)
  · have h := hperm.map Prod.fst
    rw [List.map_map] at h
    have h2 : (distinct_keys keys).map (Prod.fst ∘ fun k => (k, keys.count k)) =
        distinct_keys keys := by
      have hid : (Prod.fst ∘ fun k : κ => (k, keys.count k)) = id := rfl
      rw [hid, List.map_id]
    rw [h2] at h
    exact h.nodup_iff.mpr (nodup_distinct_keys keys)

theorem value_counts_spec_sum {κ : Type} [DecidableEq κ] (keys : List κ)
    {out : List (κ × Nat)} (h : value_counts_spec keys out) :
    (out.map Prod.snd).sum = keys.length := by
  obtain ⟨h1, h2, h3, -⟩ := h
  have hmem : ∀ a, a ∈ out.map Prod.fst ↔ a ∈ distinct_keys keys := by
    intro a
    rw [mem_distinct_keys, List.mem_map]
    constructor
    · rintro ⟨p, hp, rfl⟩
      exact (h1 p hp).1
    · intro ha
      exact ⟨(a, keys.count a), h2 a ha, rfl⟩
  have hperm : (out.map Prod.fst).Perm (distinct_keys keys) :=
    (List.perm_ext_iff_of_nodup h3 (nodup_distinct_keys keys)).mpr hmem
  have hsnd : out.map Prod.snd = (out.map Prod.fst).map (fun k => keys.count k) := by
    rw [List.map_map]
    refine List.map_congr_left ?_
    intro p hp
    exact (h1 p hp).2
  rw [hsnd, (hperm.map (fun k => keys.count k)).sum_eq, sum_counts_distinct]

/-- C2 (amended): every admissible `get_top_earners` result — any tie
order the unstable sort may produce — has `min n total` rows, each the
projection of a dataset record, sorted descending by salary with
missing salaries never before present ones, and admissible results
exist; likewise `get_top_experienced` for years of experience.  The
original claim's tie-break by original dataset order is not a guarantee
of the code: `sort_values` defaults to an unstable sort kind, see the
counterexample. -/
theorem c2_top_earners_experienced (ds : List Record) (n : Nat) (_hn : 1 ≤ n) :
    (∀ res, top_earners_spec ds n res →
      res.length = min n ds.length ∧
      (∀ e ∈ res, ∃ r ∈ ds,
        e = ⟨r.first_name, r.last_name, r.salary, r.industry⟩) ∧
      res.Pairwise (fun a b =>
        (∀ x y, a.salary = some x → b.salary = some y → y ≤ x) ∧
        (a.salary = none → b.salary = none))) ∧
    (∃ res, top_earners_spec ds n res) ∧
    (∀ res, top_experienced_spec ds n res →
      res.length = min n ds.length ∧
      (∀ e ∈ res, ∃ r ∈ ds,
        e = ⟨r.first_name, r.last_name, r.years_of_experience, r.industry⟩) ∧
      res.Pairwise (fun a b =>
        (∀ x y, a.years_of_experience = some x → b.years_of_experience = some y → y ≤ x) ∧
        (a.years_of_experience = none → b.years_of_experience = none))) ∧
    (∃ res, top_experienced_spec ds n res) := by
  refine ⟨?_, ?_, ?_, ?_⟩
  · rintro res ⟨out, ⟨hperm, hsort⟩, rfl⟩
    refine ⟨?_, ?_, ?_⟩
    · rw [List.length_map, List.length_take, hperm.length_eq]
    · intro e he
      obtain ⟨r, hr, rfl⟩ := List.mem_map.mp he
      exact ⟨r, hperm.mem_iff.mp ((List.take_sublist n out).subset hr), rfl⟩
    · rw [List.pairwise_map]
      exact ((pairwise_keyDescLe_fields _ hsort).sublist
        (List.take_sublist n out)).imp (fun h => h)
  · exact ⟨_, sort_values_impl (fun r => r.salary) ds,
      sort_values_spec_impl _ ds, rfl⟩
  · rintro res ⟨out, ⟨hperm, hsort⟩, rfl⟩
    refine ⟨?_, ?_, ?_⟩
    · rw [List.length_map, List.length_take, hperm.length_eq]
    · intro e he
      obtain ⟨r, hr, rfl⟩ := List.mem_map.mp he
      exact ⟨r, hperm.mem_iff.mp ((List.take_sublist n out).subset hr), rfl⟩
    · rw [List.pairwise_map]
      exact ((pairwise_keyDescLe_fields _ hsort).sublist
        (List.take_sublist n out)).imp (fun h => h)
  · exact ⟨_, sort_values_impl (fun r => r.years_of_experience) ds,
      sort_values_spec_impl _ ds, rfl⟩

/-- C2 counterexample: on two records with equal salaries, the list that
reverses them is an admissible `sort_values` output, so an admissible
`get_top_earners` result lists the record at dataset position 1 before
the one at position 0 — against "equal values ordered by original
dataset order". -/
theorem c2_top_earners_counterexample :
    top_earners_spec dsTie 2
      [⟨"Bea", "Bell", some 10, some "Retail"⟩, ⟨"Ann", "Ash", some 10, some "Tech"⟩] ∧
    dsTie.map (fun r => (⟨r.first_name, r.last_name, r.salary, r.industry⟩ : EarnerRow)) =
      [⟨"Ann", "Ash", some 10, some "Tech"⟩, ⟨"Bea", "Bell", some 10, some "Retail"⟩] ∧
    rTieA.salary = rTieB.salary ∧ rTieA ≠ rTieB :=
  ⟨⟨[rTieB, rTieA], by decide, by decide⟩, by decide, by decide, by decide⟩

/-- C3: on degenerate inputs the service layer yields a stats value with
only `count = 0` and every other statistic absent, and a null
correlation, without raising — but `StatsResponse` requires `mean`,
`std`, `min` and `max`, so the absent statistics fail the response
validation and the degenerate stats cases reach the caller as an error,
against the claim.  (`CorrelationResponse` declares both of its fields
`Optional`, so the null correlations do serialize.) -/
theorem c3_degenerate_stats_response_invalid (ds : List Record) (industry : Option String) :
    ((industry_subset ds industry).filterMap (fun r => r.salary) = [] →
      get_salary_stats ds industry = ⟨0, none, none, none, none, none, none, none⟩ ∧
      statsResponse_validates (get_salary_stats ds industry) = false) ∧
    ((industry_subset ds industry).filterMap (fun r => r.years_of_experience) = [] →
      get_experience_stats ds industry = ⟨0, none, none, none, none, none, none, none⟩ ∧
      statsResponse_validates (get_experience_stats ds industry) = false) ∧
    (ds.filterMap (fun r => r.age.map (fun a => (a : ℚ))) = [] →
      get_age_distribution ds = ⟨0, none, none, none, none, none, none, none⟩ ∧
      statsResponse_validates (get_age_distribution ds) = false) ∧
    ((paired_obs (fun r => r.salary) (fun r => r.years_of_experience) ds).length < 2 →
      (get_correlations ds).salary_vs_experience = none) ∧
    ((paired_obs (fun r => r.years_of_experience)
        (fun r => r.age.map (fun a => (a : ℚ))) ds).length < 2 →
      (get_correlations ds).experience_vs_age = none) := by
  refine ⟨?_, ?_, ?_, ?_, ?_⟩
  · intro h
    rw [get_salary_stats, h]
    exact ⟨by decide, by decide⟩
  · intro h
    rw [get_experience_stats, h]
    exact ⟨by decide, by decide⟩
  · intro h
    rw [get_age_distribution, h]
    exact ⟨by decide, by decide⟩
  · intro h
    show pearson _ = none
    rw [pearson, if_pos h]
  · intro h
    show pearson _ = none
    rw [pearson, if_pos h]

/-- C6 (amended): every admissible industry distribution — any tie
order — has at most `top_n` entries, each mapping an industry present
in the dataset to the number of records with exactly that industry, in
descending count order, and admissible results exist.  The original
claim's tie-break by first-encountered industry is not a guarantee of
the code: `value_counts` leaves the order of equal counts unspecified,
so which equal-count industries survive `head(top_n)` is also
unspecified, see the counterexample. -/
theorem c6_industry_distribution (ds : List Record) (top_n : Nat)
    (_htop : 1 ≤ top_n) :
    (∀ res, get_industry_distribution_spec ds top_n res →
      res.length ≤ top_n ∧
      (∀ p ∈ res,
        p.2 = (ds.filter (fun r => r.industry = some p.1)).length ∧
        p.1 ∈ ds.filterMap (fun r => r.industry)) ∧
      res.Pairwise (fun p q => q.2 ≤ p.2)) ∧
    (∃ res, get_industry_distribution_spec ds top_n res) := by
  refine ⟨?_, ⟨_, value_counts_impl _, value_counts_spec_impl _, rfl⟩⟩
  rintro res ⟨out, ⟨h1, h2, h3, h4⟩, rfl⟩
  refine ⟨List.length_take_le _ _, ?_, ?_⟩
  · intro p hp
    have hm := h1 p ((List.take_sublist _ _).subset hp)
    exact ⟨by rw [hm.2, count_filterMap_eq], hm.1⟩
  · exact (h4.sublist (List.take_sublist _ _)).imp (fun h => h)

/-- C6 counterexample: on one "Tech" and one "Retail" record (equal
counts), the distribution listing "Retail" first is admissible, so the
admissible top-1 selection is `[("Retail", 1)]` although "Tech" is the
industry first encountered in the dataset. -/
theorem c6_industry_distribution_counterexample :
    get_industry_distribution_spec dsTie 1 [("Retail", 1)] ∧
    (dsTie.filterMap (fun r => r.industry)).indexOf "Tech" <
      (dsTie.filterMap (fun r => r.industry)).indexOf "Retail" :=
  ⟨⟨[("Retail", 1), ("Tech", 1)], by decide, rfl⟩, by decide⟩

/-- C7: every admissible gender distribution maps every gender value
occurring in the dataset (the missing marker included) to its record
count, each exactly once, its counts sum to the total record count, and
admissible results exist. -/
theorem c7_gender_distribution (ds : List Record) :
    (∀ res, get_gender_distribution_spec ds res →
      (res.map Prod.snd).sum = ds.length ∧
      (∀ p ∈ res, p.2 = (ds.filter (fun r => r.gender = p.1)).length) ∧
      (∀ p ∈ res, p.1 ∈ ds.map (fun r => r.gender)) ∧
      (∀ g : Option String, (∃ r ∈ ds, r.gender = g) →
        (g, (ds.filter (fun r => r.gender = g)).length) ∈ res) ∧
      (res.map Prod.fst).Nodup) ∧
    (∃ res, get_gender_distribution_spec ds res) := by
  refine ⟨?_, ⟨_, value_counts_spec_impl _⟩⟩
  intro res hspec
  have hsum := value_counts_spec_sum _ hspec
  obtain ⟨h1, h2, h3, -⟩ := hspec
  refine ⟨?_, ?_, ?_, ?_, h3⟩
  · rw [hsum, List.length_map]
  · intro p hp
    rw [(h1 p hp).2, count_map_eq]
  · intro p hp
    exact (h1 p hp).1
  · intro g hg
    obtain ⟨r, hr, hrg⟩ := hg
    have hmem := h2 g (List.mem_map.mpr ⟨r, hr, hrg⟩)
    rw [count_map_eq] at hmem
    exact hmem

/-- C10: for every admissible industry distribution, every entry's key
is the industry of some record with the count of exactly those records
(records with a missing industry are counted nowhere), so the counts
sum to at most the number of records with a present industry — on
`dsC10` the unique admissible top-1 distribution sums strictly below
the record count. -/
theorem c10_industry_distribution_missing (ds : List Record) (top_n : Nat)
    (_htop : 1 ≤ top_n) :
    (∀ res, get_industry_distribution_spec ds top_n res →
      (∀ p ∈ res, p.1 ∈ ds.filterMap (fun r => r.industry) ∧
        p.2 = (ds.filter (fun r => r.industry = some p.1)).length) ∧
      (res.map Prod.snd).sum ≤ (ds.filter (fun r => r.industry.isSome)).length) ∧
    (get_industry_distribution_spec dsC10 1 [("Tech", 1)] ∧
      (([("Tech", 1)] : List (String × Nat)).map Prod.snd).sum < dsC10.length) := by
  refine ⟨?_, ⟨[("Tech", 1)], by decide, rfl⟩, by decide⟩
  rintro res ⟨out, hspec, rfl⟩
  have h1 := hspec.1
  refine ⟨?_, ?_⟩
  · intro p hp
    have hm := h1 p ((List.take_sublist _ _).subset hp)
    exact ⟨hm.1, by rw [hm.2, count_filterMap_eq]⟩
  · have hsub : ((out.take top_n).map Prod.snd).Sublist (out.map Prod.snd) :=
      (List.take_sublist _ _).map _
    have hle := hsub.sum_le_sum (fun a _ => Nat.zero_le a)
    rw [value_counts_spec_sum _ hspec, length_filterMap_isSome] at hle
    exact hle

theorem c2_top_earners_experienced_witness :
    1 ≤ 2 ∧ (((sort_values_impl (fun r => r.salary) dsW).take 2).map
      (fun r => (⟨r.first_name, r.last_name, r.salary, r.industry⟩ : EarnerRow))).length =
      min 2 dsW.length :=
  ⟨by decide, ((c2_top_earners_experienced dsW 2 (by decide)).1 _
    ⟨sort_values_impl (fun r => r.salary) dsW, sort_values_spec_impl _ dsW, rfl⟩).1⟩

theorem c3_degenerate_stats_response_invalid_witness :
    (industry_subset dsW3 none).filterMap (fun r => r.salary) = [] ∧
    statsResponse_validates (get_salary_stats dsW3 none) = false :=
  ⟨by decide, ((c3_degenerate_stats_response_invalid dsW3 none).1 (by decide)).2⟩

theorem c6_industry_distribution_witness :
    1 ≤ 2 ∧ ((value_counts_impl (dsW.filterMap (fun r => r.industry))).take 2).length ≤ 2 :=
  ⟨by decide, ((c6_industry_distribution dsW 2 (by decide)).1 _
    ⟨value_counts_impl _, value_counts_spec_impl _, rfl⟩).1⟩

theorem c7_gender_distribution_witness :
    ((value_counts_impl (dsW.map (fun r => r.gender))).map Prod.snd).sum = dsW.length :=
  ((c7_gender_distribution dsW).1 _ (value_counts_spec_impl _)).1

theorem c10_industry_distribution_missing_witness :
    1 ≤ 1 ∧ (([("Tech", 1)] : List (String × Nat)).map Prod.snd).sum ≤
      (dsC10.filter (fun r => r.industry.isSome)).length :=
  ⟨by decide, ((c10_industry_distribution_missing dsC10 1 (by decide)).1 _
    ⟨[("Tech", 1)], by decide, rfl⟩).2⟩

end EmployeesStats
